import Mathlib

set_option maxRecDepth 40000

/-
Shallow embedding of the segmentation / per-segment generation / reassembly
pipeline of lofi_convert_from_url.py, together with theorems settling the
frozen claims about it.

The embedding follows the source file:
  - split_audio_segments runs the ffmpeg segment muxer (stream copy) on the
    source wav, producing part_000.wav, part_001.wav, ... and returns
    sorted(outdir.glob("part_*.wav")), a lexicographic sort over file names;
  - process_segments_with_musicgen picks a device once, loads the MusicGen
    model once, then for each segment file loads it, sets the generation
    duration to int(samples / sample_rate), builds the conditioning text and
    generates; there is no try/except around the model call;
  - concat_segments concatenates the given files in list order via the
    ffmpeg concat demuxer (stream copy).
-/

namespace LofiConvert

/-- Mono waveform: the sequence of PCM sample values of a decoded buffer. -/
abbrev Waveform := List Int

/-- Decoded source audio (downloaded.wav): sample buffer plus sample rate. -/
structure SourceTrack where
  samples : Waveform
  sr : Nat
  deriving DecidableEq

/-- One segment as torchaudio.load returns it from a part file: sample
buffer (melody.shape[1] samples) and its sample rate. -/
structure Segment where
  samples : Waveform
  sr : Nat
  deriving DecidableEq

/-- Little-endian decimal digits of n, with explicit fuel so the definition
reduces in the kernel; digitsAux n n is exact because a number never has
more digits than its own value. -/
def digitsAux : Nat → Nat → List Nat
  | 0, _ => []
  | fuel+1, n => if n = 0 then [] else n % 10 :: digitsAux fuel (n / 10)

/-- Most-significant-first decimal digits of n, with [0] for 0. -/
def decDigits (n : Nat) : List Nat :=
  if n = 0 then [0] else (digitsAux n n).reverse

/-- Character codes of the printf %03d rendering of i: decimal digit
characters left-padded with the zero character (code 48) to width 3. -/
def fmt03 (i : Nat) : List Nat :=
  List.replicate (3 - ((decDigits i).map (fun d => 48 + d)).length) 48
    ++ (decDigits i).map (fun d => 48 + d)

/-- Character codes of the file name part_%03d.wav that the ffmpeg segment
muxer writes for segment index i in split_audio_segments. -/
def partName (i : Nat) : List Nat :=
  [112, 97, 114, 116, 95] ++ fmt03 i ++ [46, 119, 97, 118]

/-- Strict byte-wise lexicographic comparison of file names (as code lists),
the order Python applies when sorting path strings. -/
def lexLtB : List Nat → List Nat → Bool
  | [], [] => false
  | [], _ :: _ => true
  | _ :: _, [] => false
  | a :: as, b :: bs =>
    if a < b then true
    else if a = b then lexLtB as bs
    else false

/-- Reflexive lexicographic comparison derived from the strict one. -/
def lexLeB (x y : List Nat) : Bool := !(lexLtB y x)

/-- Order on (file name, waveform) pairs by file name, as used by
sorted(outdir.glob("part_*.wav")). -/
def nameLe (x y : List Nat × Waveform) : Prop := lexLeB x.1 y.1 = true

instance : DecidableRel nameLe := fun _ _ => Bool.decEq _ _

/-- Cut a waveform into consecutive chunks of k samples (the last chunk may
be shorter); fuel equals the list length so the kernel can reduce it. This
is the sample-level effect of ffmpeg -f segment -segment_time t -c copy on
a wav of rate sr, with k = t * sr. -/
def chunksAux (k : Nat) : Nat → Waveform → List Waveform
  | 0, _ => []
  | _+1, [] => []
  | fuel+1, a :: l => (a :: l).take k :: chunksAux k fuel ((a :: l).drop k)

/-- Sample-level content of the part files written by split_audio_segments,
in segment-index order. -/
def splitWave (t : Nat) (src : SourceTrack) : List Waveform :=
  chunksAux (t * src.sr) src.samples.length src.samples

/-- Return value of split_audio_segments: the (file name, waveform) pairs of
the part files, sorted lexicographically by file name, mirroring
sorted(outdir.glob("part_*.wav")). -/
def split_audio_segments (t : Nat) (src : SourceTrack) : List (List Nat × Waveform) :=
  List.insertionSort nameLe ((splitWave t src).enum.map (fun p => (partName p.1, p.2)))

/-- Effect of concat_segments: the ffmpeg concat demuxer with stream copy
joins the listed files in the order of the list written to segments.txt. -/
def concat_segments (parts : List Waveform) : Waveform :=
  parts.flatten

/-- Conditioning text built in process_segments_with_musicgen and
run_musicgen_melody: the style text with the fixed melody-retention
instruction appended, from the f-string in the source. -/
def mkDescription (style_text : String) : String :=
  style_text ++ ", keep original melody and chord progression"

/-- Modelled from the spec: the StyleConditioner the spec describes, whose
preserveMelody flag gates the appended instruction. The code has no such
flag (the argparse surface has no melody option and the f-string is
unconditional); this definition exists only to compare spec and code. -/
def mkDescriptionSpec (style_text : String) (preserveMelody : Bool) : String :=
  if preserveMelody then style_text ++ ", keep original melody and chord progression"
  else style_text

/-- Target generation duration in whole seconds passed to
set_generation_params: int(melody.shape[1] / sr), i.e. the truncated
(floor) division of the sample count by the sample rate. -/
def genDuration (seg : Segment) : Nat :=
  seg.samples.length / seg.sr

/-- Request content handed to the model for one segment: the conditioning
text of generate_with_chroma plus the duration of set_generation_params. -/
structure GenerationRequest where
  description : String
  duration : Nat
  deriving DecidableEq

/-- StyleConditioner step of the loop body: build the generation request
from the segment and the user style text. It is a pure function of its two
arguments in the source as well: nothing else flows into the request. -/
def mkRequest (style_text : String) (seg : Segment) : GenerationRequest :=
  GenerationRequest.mk (mkDescription style_text) (genDuration seg)

/-- Native output sample rate of the facebook/musicgen-melody checkpoint
(model.sample_rate), which audio_write receives for every generated part. -/
def modelSampleRate : Nat := 32000

/-- Number of samples MusicGen emits for one segment: the requested whole-
second duration at the native model rate. -/
def generatedLength (seg : Segment) : Nat :=
  genDuration seg * modelSampleRate

/-- Total sample count of the reassembled output of a fully successful run
over the given segments. -/
def outputTotalSamples (segs : List Segment) : Nat :=
  (segs.map generatedLength).sum

/-- Total sample count of the source, as the sum of its segment lengths. -/
def sourceTotalSamples (segs : List Segment) : Nat :=
  (segs.map (fun s => s.samples.length)).sum

/-- Failure of one model invocation (device fault, OOM, ...), carrying an
opaque code. -/
inductive GenError
  | fault (code : Nat)
  deriving DecidableEq

/-- Result-level model of the loop of process_segments_with_musicgen: one
generated waveform is appended per segment, and an exception from the model
call propagates out of the loop (the source has no try/except), so the pair
holds the outputs of the segments before the first failure together with
that first error, if any. -/
def runSegments (gen : Segment → Except GenError Waveform) :
    List Segment → List Waveform × Option GenError
  | [] => ([], none)
  | s :: rest =>
    match gen s with
    | Except.error e => ([], some e)
    | Except.ok w =>
      ((runSegments gen rest).1.cons w, (runSegments gen rest).2)

/-- Generator used by concrete scenarios: fails exactly on a segment whose
buffer is empty, succeeds with the input buffer otherwise. -/
def failOnEmpty (s : Segment) : Except GenError Waveform :=
  if s.samples = [] then Except.error (GenError.fault 1) else Except.ok s.samples

/-- Compute device, as picked by torch.device in the source. -/
inductive Device
  | cuda
  | cpu
  deriving DecidableEq

/-- Observable resource events of process_segments_with_musicgen. -/
inductive Ev
  | selectDevice (d : Device)
  | loadModel (handle : Nat)
  | loadSegment (i : Nat)
  | setParams (i : Nat) (dur : Nat)
  | generate (i : Nat) (d : Device) (handle : Nat)
  | writeOutput (i : Nat)
  deriving DecidableEq

/-- Device choice: cuda if torch.cuda.is_available() else cpu. -/
def pickDevice (cudaAvailable : Bool) : Device :=
  if cudaAvailable then Device.cuda else Device.cpu

/-- Events of one iteration of the for-loop over segments, which uses the
device d and model handle m bound before the loop. -/
def loopBodyTrace (d : Device) (m : Nat) (p : Nat × Segment) : List Ev :=
  [Ev.loadSegment p.1, Ev.setParams p.1 (genDuration p.2),
   Ev.generate p.1 d m, Ev.writeOutput p.1]

/-- Event-level model of process_segments_with_musicgen: the device is
selected once and the model loaded once (handle 0) before the loop, then
each segment is processed with that same device and handle. -/
def processTrace (cudaAvailable : Bool) (segs : List Segment) : List Ev :=
  Ev.selectDevice (pickDevice cudaAvailable) :: Ev.loadModel 0 ::
    (segs.enum.map (loopBodyTrace (pickDevice cudaAvailable) 0)).flatten

/-- Initialization events: device selection and model load. -/
def isInitEv : Ev → Bool
  | Ev.selectDevice _ => true
  | Ev.loadModel _ => true
  | _ => false

/-- Command line split_audio_segments passes to subprocess.run. -/
def splitArgv (srcPath : String) (t : Int) (outdir : String) : List String :=
  ["ffmpeg", "-y", "-i", srcPath, "-f", "segment",
   "-segment_time", toString t, "-c", "copy", outdir ++ "/part_%03d.wav"]

/-- What the segmenter can do first with a window length. -/
inductive SplitAction
  | invoke (argv : List String)
  | invalidParameter
  deriving DecidableEq

/-- First action of split_audio_segments for a given window length: the
source validates nothing, so for every t (zero and negative included) it
directly invokes ffmpeg with that value. -/
def splitFirstAction (srcPath : String) (t : Int) (outdir : String) : SplitAction :=
  SplitAction.invoke (splitArgv srcPath t outdir)

/-- Segment of 1.5 seconds at 32000 Hz: 48000 samples. -/
def shortSeg : Segment := Segment.mk (List.replicate 48000 0) 32000

/-- Segment of exactly 2 whole seconds at 32000 Hz: 64000 samples. -/
def wholeSeg : Segment := Segment.mk (List.replicate 64000 0) 32000

/-- Segment of 2.5 seconds at 32000 Hz: 80000 samples. -/
def fracSeg : Segment := Segment.mk (List.replicate 80000 0) 32000

/-- Unfolding of genDuration, kept as a rewriting lemma. -/
theorem genDuration_eq (seg : Segment) : genDuration seg = seg.samples.length / seg.sr := rfl

/-- Totals over a one-segment run, kept as rewriting lemmas. -/
theorem outputTotal_singleton (s : Segment) :
    outputTotalSamples [s] = genDuration s * modelSampleRate := by
  simp [outputTotalSamples, generatedLength]

theorem sourceTotal_singleton (s : Segment) :
    sourceTotalSamples [s] = s.samples.length := by
  simp [sourceTotalSamples]

theorem modelSampleRate_eq : modelSampleRate = 32000 := rfl

theorem shortSeg_len : shortSeg.samples.length = 48000 := List.length_replicate 48000 0

theorem shortSeg_sr : shortSeg.sr = 32000 := rfl

theorem shortSeg_dur : genDuration shortSeg = 1 := by
  rw [genDuration_eq, shortSeg_len, shortSeg_sr]

/-- C1 counterexample: a fully successful run over a single segment of
48000 samples at 32000 Hz (1.5 s) produces an output of 32000 samples,
16000 samples short of the source, far beyond one sample of tolerance:
set_generation_params receives int(48000 / 32000) = 1 second. -/
theorem C1_counterexample :
    sourceTotalSamples [shortSeg] = 48000 ∧
    outputTotalSamples [shortSeg] = 32000 ∧
    1 < sourceTotalSamples [shortSeg] - outputTotalSamples [shortSeg] := by
  have h1 : sourceTotalSamples [shortSeg] = 48000 := by
    rw [sourceTotal_singleton, shortSeg_len]
  have h2 : outputTotalSamples [shortSeg] = 32000 := by
    rw [outputTotal_singleton, shortSeg_dur, modelSampleRate_eq]
  exact ⟨h1, h2, by rw [h1, h2]; norm_num⟩

/-- C1 (amended): for a fully successful run, the output length equals the
source length exactly (hence within one sample) provided every segment is a
whole number of seconds long (its rate divides its sample count) and is at
the model rate of 32000 Hz; in general each segment contributes only
floor(samples / sr) whole seconds of output. -/
theorem C1_output_duration (segs : List Segment)
    (h : ∀ s ∈ segs, s.sr = modelSampleRate ∧ s.sr ∣ s.samples.length) :
    outputTotalSamples segs = sourceTotalSamples segs := by
  induction segs with
  | nil => rfl
  | cons s l ih =>
    have hs := h s (List.mem_cons_self s l)
    have hl := ih (fun x hx => h x (List.mem_cons_of_mem s hx))
    have hgen : generatedLength s = s.samples.length := by
      unfold generatedLength genDuration
      rw [← hs.1, Nat.div_mul_cancel hs.2]
    simp [outputTotalSamples, sourceTotalSamples, List.map_cons, List.sum_cons] at hl ⊢
    rw [hgen, hl]

theorem wholeSeg_len : wholeSeg.samples.length = 64000 := List.length_replicate 64000 0

theorem wholeSeg_sr : wholeSeg.sr = 32000 := rfl

/-- Witness for C1_output_duration at a single 2-second segment. -/
theorem C1_output_duration_witness :
    outputTotalSamples [wholeSeg] = sourceTotalSamples [wholeSeg] :=
  C1_output_duration [wholeSeg] (by
    intro s hs
    simp only [List.mem_singleton] at hs
    subst hs
    refine ⟨rfl, ?_⟩
    rw [wholeSeg_len, wholeSeg_sr]
    exact ⟨2, by norm_num⟩)

/-- C2 counterexample: for the 80000-sample segment at 32000 Hz the duration
passed to the model is int(80000 / 32000) = 2 whole seconds, and 2 times the
rate is 64000, not the segment sample count 80000: the target duration is
not exactly the segment length. -/
theorem fracSeg_len : fracSeg.samples.length = 80000 := List.length_replicate 80000 0

theorem fracSeg_sr : fracSeg.sr = 32000 := rfl

theorem fracSeg_dur : genDuration fracSeg = 2 := by
  rw [genDuration_eq, fracSeg_len, fracSeg_sr]

theorem C2_counterexample :
    genDuration fracSeg = 2 ∧ genDuration fracSeg * fracSeg.sr ≠ fracSeg.samples.length := by
  refine ⟨fracSeg_dur, ?_⟩
  rw [fracSeg_dur, fracSeg_sr, fracSeg_len]
  norm_num

/-- C2 (amended): the target duration is the segment length truncated down
to whole seconds: it is computed from the segment (never a global default),
satisfies dur * sr ≤ samples < (dur + 1) * sr, and equals the segment
length exactly only when the rate divides the sample count. -/
theorem C2_target_duration (seg : Segment) (h : 0 < seg.sr) :
    genDuration seg * seg.sr ≤ seg.samples.length ∧
    seg.samples.length < (genDuration seg + 1) * seg.sr ∧
    (seg.sr ∣ seg.samples.length → genDuration seg * seg.sr = seg.samples.length) := by
  refine ⟨Nat.div_mul_le_self _ _, ?_, fun hd => Nat.div_mul_cancel hd⟩
  have h1 := Nat.div_add_mod seg.samples.length seg.sr
  have h2 := Nat.mod_lt seg.samples.length h
  unfold genDuration
  calc seg.samples.length
      = seg.sr * (seg.samples.length / seg.sr) + seg.samples.length % seg.sr := h1.symm
    _ < seg.sr * (seg.samples.length / seg.sr) + seg.sr := by omega
    _ = (seg.samples.length / seg.sr + 1) * seg.sr := by ring

/-- Witness for C2_target_duration at the 2-second segment. -/
theorem C2_target_duration_witness :
    genDuration wholeSeg * wholeSeg.sr ≤ wholeSeg.samples.length ∧
    wholeSeg.samples.length < (genDuration wholeSeg + 1) * wholeSeg.sr ∧
    (wholeSeg.sr ∣ wholeSeg.samples.length →
      genDuration wholeSeg * wholeSeg.sr = wholeSeg.samples.length) :=
  C2_target_duration wholeSeg (by rw [wholeSeg_sr]; norm_num)

/-- C6 counterexample: the spec conditioner with preserveMelody off returns
the bare style text, but the code has no flag and always appends the
instruction, so the two differ: the instruction can never be absent. -/
theorem C6_counterexample :
    mkDescription "lofi" ≠ mkDescriptionSpec "lofi" false := by
  decide

/-- C6 (amended): for every style text the conditioning text is the style
text with the melody-retention instruction appended, unconditionally: the
code coincides with the spec conditioner whose flag is hard-wired on, and
no configuration can turn the instruction off. -/
theorem C6_description (style_text : String) :
    mkDescription style_text = style_text ++ ", keep original melody and chord progression" ∧
    mkDescription style_text = mkDescriptionSpec style_text true :=
  ⟨rfl, rfl⟩

/-- C9: the StyleConditioner is deterministic and idempotent: the request
built from a (style, segment) pair is a pure function of that pair, two
applications yield identical objects, and the components are exactly the
conditioning text and the truncated duration. -/
theorem C9_conditioner_idempotent (style_text : String) (seg : Segment) :
    mkRequest style_text seg = mkRequest style_text seg ∧
    mkRequest style_text seg =
      GenerationRequest.mk (mkDescription style_text) (genDuration seg) :=
  ⟨rfl, rfl⟩

/-- C3 counterexample: with a model failing on the first of two segments
(the second would succeed), the loop aborts at once: the run yields zero
per-segment results instead of one result per request, and never reaches
the second segment. -/
theorem C3_counterexample :
    runSegments failOnEmpty [Segment.mk [] 1, Segment.mk [9] 1] =
      ([], some (GenError.fault 1)) ∧
    (runSegments failOnEmpty [Segment.mk [] 1, Segment.mk [9] 1]).1.length ≠
      [Segment.mk [] 1, Segment.mk [9] 1].length := by
  constructor <;> decide

/-- C3 (amended): a failing model invocation aborts the loop instead of
being recorded and skipped: if every segment before s succeeds and s fails,
the run produces outputs exactly for the prefix before s (none for s or any
later segment) and surfaces the error; results are one-per-request only
when no failure occurs. -/
theorem C3_failure_aborts (gen : Segment → Except GenError Waveform)
    (pre : List Segment) (s : Segment) (post : List Segment)
    (hok : ∀ x ∈ pre, ∃ w, gen x = Except.ok w)
    (herr : ∃ e, gen s = Except.error e) :
    (runSegments gen (pre ++ s :: post)).1.length = pre.length ∧
    (runSegments gen (pre ++ s :: post)).2.isSome = true := by
  induction pre with
  | nil =>
    obtain ⟨e, he⟩ := herr
    simp only [List.nil_append, runSegments, he]
    exact ⟨rfl, rfl⟩
  | cons x rest ih =>
    obtain ⟨w, hw⟩ := hok x (List.mem_cons_self x rest)
    have ihr := ih (fun y hy => hok y (List.mem_cons_of_mem x hy))
    simp only [List.cons_append, runSegments, hw, List.length_cons, List.append_eq]
    exact ⟨by rw [ihr.1], ihr.2⟩

/-- Witness for C3_failure_aborts: one succeeding segment, then the failing
one, then one more that is never reached. -/
theorem C3_failure_aborts_witness :
    (runSegments failOnEmpty
      ([Segment.mk [5] 1] ++ Segment.mk [] 1 :: [Segment.mk [7] 1])).1.length = 1 ∧
    (runSegments failOnEmpty
      ([Segment.mk [5] 1] ++ Segment.mk [] 1 :: [Segment.mk [7] 1])).2.isSome = true :=
  C3_failure_aborts failOnEmpty [Segment.mk [5] 1] (Segment.mk [] 1) [Segment.mk [7] 1]
    (by intro x hx; simp only [List.mem_singleton] at hx; subst hx; exact ⟨[5], rfl⟩)
    ⟨GenError.fault 1, rfl⟩

/-- C5 counterexample: with a failure at the second of three requests the
orchestrator emits one output, not one result per request: the contract of
one result per request in input order only holds for fully successful
runs. -/
theorem C5_counterexample :
    (runSegments failOnEmpty [Segment.mk [1] 1, Segment.mk [] 1, Segment.mk [3] 1]).1.length = 1 ∧
    [Segment.mk [1] 1, Segment.mk [] 1, Segment.mk [3] 1].length = 3 := by
  constructor <;> decide

/-- C5 (amended): on a run where every model invocation succeeds, the loop
emits exactly one output per request, in the input order (processing is
strictly sequential), with no trailing error; the reassembler then
concatenates the outputs in exactly this emission order. -/
theorem C5_order_preserved (gen : Segment → Except GenError Waveform)
    (segs : List Segment) (f : Segment → Waveform)
    (h : ∀ s ∈ segs, gen s = Except.ok (f s)) :
    runSegments gen segs = (segs.map f, none) := by
  induction segs with
  | nil => rfl
  | cons s rest ih =>
    have hs := h s (List.mem_cons_self s rest)
    have ihr := ih (fun y hy => h y (List.mem_cons_of_mem s hy))
    simp only [runSegments, hs, ihr, List.map_cons]

/-- Witness for C5_order_preserved on two succeeding segments. -/
theorem C5_order_preserved_witness :
    runSegments failOnEmpty [Segment.mk [1] 1, Segment.mk [2] 1] =
      ([Segment.mk [1] 1, Segment.mk [2] 1].map Segment.samples, none) :=
  C5_order_preserved failOnEmpty [Segment.mk [1] 1, Segment.mk [2] 1] Segment.samples
    (by intro s hs; fin_cases hs <;> rfl)

/-- C7 counterexample: at window length 0 the segmenter does not fail with
InvalidParameter before producing segments; it directly invokes ffmpeg with
segment_time 0 and any failure would be the external process error. -/
theorem C7_counterexample :
    splitFirstAction "downloaded.wav" 0 "segments" ≠ SplitAction.invalidParameter :=
  fun h => SplitAction.noConfusion h

/-- C7 (amended): the source validates no window length: for every t,
including 0 and negative values, the first action is the ffmpeg invocation
built from t (never an InvalidParameter failure); and for positive window
length over a non-empty source the split does succeed with a non-empty
segment sequence. -/
theorem C7_no_validation (p o : String) (t : Int) (t2 : Nat) (src : SourceTrack) :
    splitFirstAction p t o = SplitAction.invoke (splitArgv p t o) ∧
    (0 < t2 → 0 < src.sr → src.samples ≠ [] → split_audio_segments t2 src ≠ []) := by
  refine ⟨rfl, fun _ _ hne hsplit => ?_⟩
  obtain ⟨a, l, hl⟩ := List.exists_cons_of_ne_nil hne
  have hempty := congrArg List.length hsplit
  rw [split_audio_segments, List.length_insertionSort, List.length_map,
    List.enum_length] at hempty
  rw [splitWave, hl] at hempty
  simp only [List.length_cons, chunksAux, List.length_nil] at hempty
  omega

/-- Witness for C7_no_validation at window length 1 over a two-sample
source. -/
theorem C7_no_validation_witness :
    splitFirstAction "downloaded.wav" 0 "segments" =
      SplitAction.invoke (splitArgv "downloaded.wav" 0 "segments") ∧
    split_audio_segments 1 (SourceTrack.mk [3, 4] 1) ≠ [] :=
  ⟨(C7_no_validation "downloaded.wav" "segments" 0 1 (SourceTrack.mk [3, 4] 1)).1,
   (C7_no_validation "downloaded.wav" "segments" 0 1 (SourceTrack.mk [3, 4] 1)).2
     (by decide) (by decide) (by decide)⟩

/-- Elements of the loop body trace are never initialization events, and
any generate event in it carries the device and model handle fixed before
the loop. -/
theorem loopBody_events (d : Device) (m : Nat) (ps : List (Nat × Segment)) (e : Ev)
    (he : e ∈ (ps.map (loopBodyTrace d m)).flatten) :
    isInitEv e = false ∧ ∀ i d2 m2, e = Ev.generate i d2 m2 → d2 = d ∧ m2 = m := by
  rw [List.mem_flatten] at he
  obtain ⟨l, hl, hel⟩ := he
  rw [List.mem_map] at hl
  obtain ⟨p, _, hp⟩ := hl
  subst hp
  simp [loopBodyTrace] at hel
  rcases hel with h | h | h | h <;> subst h
  · exact ⟨rfl, fun i d2 m2 h => Ev.noConfusion h⟩
  · exact ⟨rfl, fun i d2 m2 h => Ev.noConfusion h⟩
  · refine ⟨rfl, fun i d2 m2 h => ?_⟩
    injection h with h1 h2 h3
    exact ⟨h2.symm, h3.symm⟩
  · exact ⟨rfl, fun i d2 m2 h => Ev.noConfusion h⟩

/-- C8: in every run, the device is selected exactly once and the model
loaded exactly once, both before any per-segment work, and every generation
event uses that same device and the same model handle. -/
theorem C8_init_once (c : Bool) (segs : List Segment) :
    (processTrace c segs).countP isInitEv = 2 ∧
    (processTrace c segs).take 2 = [Ev.selectDevice (pickDevice c), Ev.loadModel 0] ∧
    ∀ i d m, Ev.generate i d m ∈ processTrace c segs → d = pickDevice c ∧ m = 0 := by
  have hbody : ∀ e ∈ (segs.enum.map (loopBodyTrace (pickDevice c) 0)).flatten,
      ¬(isInitEv e = true) := by
    intro e he
    rw [(loopBody_events (pickDevice c) 0 segs.enum e he).1]
    exact Bool.false_ne_true
  refine ⟨?_, rfl, ?_⟩
  · simp only [processTrace, List.countP_cons, isInitEv]
    rw [List.countP_eq_zero.mpr hbody]
    simp
  · intro i d m hm
    simp only [processTrace, List.mem_cons] at hm
    rcases hm with h | h | h
    · exact Ev.noConfusion h
    · exact Ev.noConfusion h
    · exact (loopBody_events (pickDevice c) 0 segs.enum _ h).2 i d m rfl

/-- Witness for C8_init_once on a one-segment run with cuda available. -/
theorem C8_init_once_witness :
    (processTrace true [Segment.mk [0] 1]).countP isInitEv = 2 ∧
    (Device.cuda = pickDevice true ∧ 0 = 0) :=
  ⟨(C8_init_once true [Segment.mk [0] 1]).1,
   (C8_init_once true [Segment.mk [0] 1]).2.2 0 Device.cuda 0 (by decide)⟩

/-- Unfolding of lexLtB on two cons cells, kept as a rewriting lemma. -/
theorem lexLtB_cons (a b : Nat) (as bs : List Nat) :
    lexLtB (a :: as) (b :: bs) =
      if a < b then true else if a = b then lexLtB as bs else false := rfl

theorem lexLtB_same_cons (a : Nat) (u v : List Nat) :
    lexLtB (a :: u) (a :: v) = lexLtB u v := by
  rw [lexLtB_cons, if_neg (Nat.lt_irrefl a), if_pos rfl]

theorem lexLtB_asymm : ∀ u v, lexLtB u v = true → lexLtB v u = false := by
  intro u
  induction u with
  | nil =>
    intro v h
    cases v with
    | nil => simp [lexLtB] at h
    | cons b bs => rfl
  | cons a as ih =>
    intro v h
    cases v with
    | nil => simp [lexLtB] at h
    | cons b bs =>
      rw [lexLtB_cons] at h
      rw [lexLtB_cons]
      by_cases h1 : a < b
      · rw [if_neg (by omega), if_neg (by omega)]
      · rw [if_neg h1] at h
        by_cases h2 : a = b
        · rw [if_pos h2] at h
          subst h2
          rw [if_neg (Nat.lt_irrefl a), if_pos rfl]
          exact ih bs h
        · rw [if_neg h2] at h
          exact absurd h (by simp)

theorem lexLtB_trans : ∀ u v w, lexLtB u v = true → lexLtB v w = true →
    lexLtB u w = true := by
  intro u
  induction u with
  | nil =>
    intro v w huv hvw
    cases v with
    | nil => simp [lexLtB] at huv
    | cons b bs =>
      cases w with
      | nil => simp [lexLtB] at hvw
      | cons c cs => rfl
  | cons a as ih =>
    intro v w huv hvw
    cases v with
    | nil => simp [lexLtB] at huv
    | cons b bs =>
      cases w with
      | nil => simp [lexLtB] at hvw
      | cons c cs =>
        rw [lexLtB_cons] at huv hvw ⊢
        by_cases h1 : a < b
        · by_cases h2 : b < c
          · rw [if_pos (by omega)]
          · rw [if_neg h2] at hvw
            by_cases h3 : b = c
            · rw [if_pos (show a < c by omega)]
            · rw [if_neg h3] at hvw
              exact absurd hvw (by simp)
        · rw [if_neg h1] at huv
          by_cases h2 : a = b
          · rw [if_pos h2] at huv
            subst h2
            by_cases h3 : a < c
            · rw [if_pos h3]
            · rw [if_neg h3] at hvw ⊢
              by_cases h4 : a = c
              · rw [if_pos h4] at hvw ⊢
                exact ih bs cs huv hvw
              · rw [if_neg h4] at hvw
                exact absurd hvw (by simp)
          · rw [if_neg h2] at huv
            exact absurd huv (by simp)

theorem lexLtB_conn : ∀ u v, lexLtB u v = false → lexLtB v u = false → u = v := by
  intro u
  induction u with
  | nil =>
    intro v h1 _
    cases v with
    | nil => rfl
    | cons b bs => simp [lexLtB] at h1
  | cons a as ih =>
    intro v h1 h2
    cases v with
    | nil => simp [lexLtB] at h2
    | cons b bs =>
      rw [lexLtB_cons] at h1 h2
      by_cases hab : a < b
      · rw [if_pos hab] at h1
        exact absurd h1 (by simp)
      · by_cases hba : b < a
        · rw [if_pos hba] at h2
          exact absurd h2 (by simp)
        · have heq : a = b := by omega
          subst heq
          rw [if_neg hab, if_pos rfl] at h1
          rw [if_neg hab, if_pos rfl] at h2
          rw [ih bs h1 h2]

instance : IsTotal (List Nat × Waveform) nameLe := by
  constructor
  intro x y
  unfold nameLe lexLeB
  cases h : lexLtB y.1 x.1 with
  | false => left; rfl
  | true =>
    right
    rw [lexLtB_asymm y.1 x.1 h]
    rfl

instance : IsTrans (List Nat × Waveform) nameLe := by
  constructor
  intro x y z hxy hyz
  unfold nameLe lexLeB at hxy hyz ⊢
  rw [Bool.not_eq_true'] at hxy hyz
  cases hzx : lexLtB z.1 x.1 with
  | false => rfl
  | true =>
    exfalso
    by_cases h1 : lexLtB x.1 y.1 = true
    · have h2 := lexLtB_trans z.1 x.1 y.1 hzx h1
      rw [h2] at hyz
      exact Bool.noConfusion hyz
    · have h3 : lexLtB x.1 y.1 = false := by
        cases hxy2 : lexLtB x.1 y.1
        · rfl
        · exact absurd hxy2 h1
      have h4 := lexLtB_conn x.1 y.1 h3 hxy
      rw [h4] at hzx
      rw [hzx] at hyz
      exact Bool.noConfusion hyz

set_option maxHeartbeats 1600000 in
/-- Exact three-character form of fmt03 below 1000, by finite check. -/
theorem fmt03_lt1000 : ∀ i, i < 1000 →
    fmt03 i = [48 + i / 100, 48 + i / 10 % 10, 48 + i % 10] := by decide

/-- Below index 1000 the part file names are strictly increasing in the
lexicographic order, because the three zero-padded digit characters are. -/
theorem partName_lt (i j : Nat) (hij : i < j) (hj : j < 1000) :
    lexLtB (partName i) (partName j) = true := by
  have hi : i < 1000 := Nat.lt_trans hij hj
  have hdig : i / 100 < j / 100 ∨
      (i / 100 = j / 100 ∧ i / 10 % 10 < j / 10 % 10) ∨
      (i / 100 = j / 100 ∧ i / 10 % 10 = j / 10 % 10 ∧ i % 10 < j % 10) := by omega
  rw [partName, partName, fmt03_lt1000 i hi, fmt03_lt1000 j hj]
  simp only [List.cons_append, List.nil_append]
  rw [lexLtB_same_cons, lexLtB_same_cons, lexLtB_same_cons, lexLtB_same_cons,
    lexLtB_same_cons]
  rcases hdig with h | ⟨h1, h2⟩ | ⟨h1, h2, h3⟩
  · rw [lexLtB_cons, if_pos (by omega)]
  · have e1 : 48 + i / 100 = 48 + j / 100 := by omega
    rw [e1, lexLtB_same_cons, lexLtB_cons, if_pos (by omega)]
  · have e1 : 48 + i / 100 = 48 + j / 100 := by omega
    have e2 : 48 + i / 10 % 10 = 48 + j / 10 % 10 := by omega
    rw [e1, lexLtB_same_cons, e2, lexLtB_same_cons, lexLtB_cons, if_pos (by omega)]

/-- With at most 1000 part files, the name-indexed pair list is already in
sorted order. -/
theorem names_sorted (ws : List Waveform) (h : ws.length ≤ 1000) :
    List.Sorted nameLe (ws.enum.map (fun p => (partName p.1, p.2))) := by
  unfold List.Sorted
  rw [List.pairwise_iff_getElem]
  intro i j hi hj hij
  rw [List.length_map, List.enum_length] at hi hj
  simp only [List.getElem_map, List.getElem_enum]
  have hfalse := lexLtB_asymm (partName i) (partName j) (partName_lt i j hij (by omega))
  unfold nameLe
  dsimp only
  unfold lexLeB
  rw [hfalse]
  rfl

/-- With at most 1000 part files the glob sort is the identity. -/
theorem sort_identity (ws : List Waveform) (h : ws.length ≤ 1000) :
    List.insertionSort nameLe (ws.enum.map (fun p => (partName p.1, p.2))) =
      ws.enum.map (fun p => (partName p.1, p.2)) :=
  List.Sorted.insertionSort_eq (names_sorted ws h)

/-- C10: for every run with at most 1000 segments the sequence the splitter
returns is exactly the part files in segment-index order (the lexicographic
sort over part_%03d.wav names is the identity there); and beyond index 999
the lexicographic order disagrees with index order: the name of segment
1000 sorts strictly before the name of segment 101. -/
theorem C10_name_ordering :
    (∀ (t : Nat) (src : SourceTrack), (splitWave t src).length ≤ 1000 →
      split_audio_segments t src =
        (splitWave t src).enum.map (fun p => (partName p.1, p.2))) ∧
    lexLtB (partName 1000) (partName 101) = true ∧ 101 < 1000 :=
  ⟨fun t src h => sort_identity (splitWave t src) h, by decide, by decide⟩

/-- Witness for C10_name_ordering on a two-segment split. -/
theorem C10_name_ordering_witness :
    split_audio_segments 1 (SourceTrack.mk [5, 7] 1) =
      (splitWave 1 (SourceTrack.mk [5, 7] 1)).enum.map (fun p => (partName p.1, p.2)) :=
  C10_name_ordering.1 1 (SourceTrack.mk [5, 7] 1) (by decide)

/-- Concatenating the chunks of a waveform restores the waveform, for any
positive chunk size and enough fuel. -/
theorem flatten_chunksAux : ∀ (fuel k : Nat) (l : Waveform), 0 < k → l.length ≤ fuel →
    (chunksAux k fuel l).flatten = l := by
  intro fuel
  induction fuel with
  | zero =>
    intro k l _ hl
    have hnil : l = [] := List.eq_nil_of_length_eq_zero (Nat.le_zero.mp hl)
    subst hnil
    rfl
  | succ n ih =>
    intro k l hk hl
    cases l with
    | nil => rfl
    | cons a m =>
      simp only [chunksAux, List.flatten_cons]
      have hlen2 : ((a :: m).drop k).length ≤ n := by
        rw [List.length_drop, List.length_cons]
        rw [List.length_cons] at hl
        omega
      rw [ih k ((a :: m).drop k) hk hlen2]
      exact List.take_append_drop k (a :: m)

/-- C4 (amended): for every source whose split yields at most 1000 segments
(and a positive per-segment sample count), concatenating the raw splitter
output in the order the splitter returns reconstructs the source waveform
losslessly; with more than 1000 segments the glob order scrambles the parts
and the law fails (see the counterexample). -/
theorem C4_roundtrip (t : Nat) (src : SourceTrack) (hk : 0 < t * src.sr)
    (hn : (splitWave t src).length ≤ 1000) :
    concat_segments ((split_audio_segments t src).map Prod.snd) = src.samples := by
  rw [split_audio_segments, List.Sorted.insertionSort_eq (names_sorted _ hn)]
  rw [List.map_map]
  have hcomp : (Prod.snd ∘ fun p : Nat × Waveform => (partName p.1, p.2)) = Prod.snd := by
    funext p
    rfl
  rw [hcomp, List.enum_map_snd]
  rw [concat_segments]
  exact flatten_chunksAux src.samples.length (t * src.sr) src.samples hk (Nat.le_refl _)

/-- Witness for C4_roundtrip on a two-sample source split into one-second
(one-sample) windows. -/
theorem C4_roundtrip_witness :
    concat_segments ((split_audio_segments 1 (SourceTrack.mk [5, 7] 1)).map Prod.snd) =
      (SourceTrack.mk [5, 7] 1).samples :=
  C4_roundtrip 1 (SourceTrack.mk [5, 7] 1) (by decide) (by decide)

/-- Source of 1002 samples at rate 1: split with one-second windows into
1002 one-sample part files, exceeding the three-digit name range. -/
def bigTrack : SourceTrack := SourceTrack.mk ((List.range 1002).map Int.ofNat) 1

/-- Name a one-sample part file carries in the bigTrack split, recovered
from its single sample value. -/
def decodeName (w : Waveform) : List Nat := partName w.headI.toNat

/-- Chunking with window 1 yields the one-sample chunks in order. -/
theorem chunksAux_one : ∀ (fuel : Nat) (l : Waveform), l.length ≤ fuel →
    chunksAux 1 fuel l = l.map (fun a => [a]) := by
  intro fuel
  induction fuel with
  | zero =>
    intro l hl
    have hnil : l = [] := List.eq_nil_of_length_eq_zero (Nat.le_zero.mp hl)
    subst hnil
    rfl
  | succ n ih =>
    intro l hl
    cases l with
    | nil => rfl
    | cons a m =>
      simp only [chunksAux, List.map_cons, List.take, List.drop]
      rw [ih m (by rw [List.length_cons] at hl; omega)]

theorem bigTrack_split : splitWave 1 bigTrack = bigTrack.samples.map (fun a => [a]) := by
  have h1 : splitWave 1 bigTrack =
      chunksAux 1 bigTrack.samples.length bigTrack.samples := rfl
  rw [h1]
  exact chunksAux_one bigTrack.samples.length bigTrack.samples (Nat.le_refl _)

theorem bigTrack_len : bigTrack.samples.length = 1002 := by
  have h1 : bigTrack.samples = (List.range 1002).map Int.ofNat := rfl
  rw [h1, List.length_map, List.length_range]

/-- Every pair the bigTrack splitter produces carries the name determined
by its single sample, and its waveform is a singleton. -/
theorem bigTrack_pair (p : List Nat × Waveform)
    (hp : p ∈ (splitWave 1 bigTrack).enum.map (fun q => (partName q.1, q.2))) :
    p.1 = decodeName p.2 ∧ ∃ a, p.2 = [a] := by
  rw [bigTrack_split] at hp
  rw [List.mem_map] at hp
  obtain ⟨q, hq, hpq⟩ := hp
  rw [List.mem_iff_getElem] at hq
  obtain ⟨i, hi, hqi⟩ := hq
  rw [List.enum_length, List.length_map] at hi
  rw [List.getElem_enum] at hqi
  subst hqi
  subst hpq
  have hw : (bigTrack.samples.map (fun a => [a]))[i] = [bigTrack.samples[i]] :=
    List.getElem_map _
  have hs : bigTrack.samples[i] = Int.ofNat i := by
    have h1 : bigTrack.samples = (List.range 1002).map Int.ofNat := rfl
    simp only [h1, List.getElem_map, List.getElem_range]
  dsimp only
  rw [hw, hs]
  refine ⟨?_, ⟨Int.ofNat i, rfl⟩⟩
  unfold decodeName
  have hh : ([Int.ofNat i] : Waveform).headI = Int.ofNat i := rfl
  have ht : (Int.ofNat i).toNat = i := rfl
  rw [hh, ht]

/-- A pair list whose names are determined by the waveforms is recoverable
from its waveform column. -/
theorem pairs_reconstruct : ∀ (M : List (List Nat × Waveform)),
    (∀ p ∈ M, p.1 = decodeName p.2) →
    M = (M.map Prod.snd).map (fun w => (decodeName w, w)) := by
  intro M
  induction M with
  | nil => intro _; rfl
  | cons p rest ih =>
    intro h
    rw [List.map_cons, List.map_cons]
    have hp := h p (List.mem_cons_self p rest)
    have hrest := ih (fun q hq => h q (List.mem_cons_of_mem p hq))
    have hhead : (decodeName p.2, p.2) = p := by
      rw [← hp]
    rw [hhead, ← hrest]

/-- A list of singleton waveforms is recoverable from its own flattening. -/
theorem flatten_singletons : ∀ (ws : List Waveform),
    (∀ w ∈ ws, ∃ a, w = [a]) → ws = ws.flatten.map (fun a => [a]) := by
  intro ws
  induction ws with
  | nil => intro _; rfl
  | cons w rest ih =>
    intro h
    obtain ⟨a, ha⟩ := h w (List.mem_cons_self w rest)
    subst ha
    rw [List.flatten_cons, List.singleton_append, List.map_cons]
    rw [← ih (fun q hq => h q (List.mem_cons_of_mem _ hq))]

/-- C4 counterexample: on the 1002-segment source the round trip fails: the
splitter returns the part files in glob order, which interleaves
part_1000.wav and part_1001.wav between part_100.wav and part_101.wav, so
concatenating its output cannot restore the source. The proof: if the
concatenation were the source, the sorted pair list would coincide with the
index-ordered pair list, which is not sorted (the name of part 999 sorts
after the name of part 1000). -/
theorem C4_counterexample :
    concat_segments ((split_audio_segments 1 bigTrack).map Prod.snd) ≠ bigTrack.samples := by
  intro h
  have hperm := List.perm_insertionSort nameLe
    ((splitWave 1 bigTrack).enum.map (fun q => (partName q.1, q.2)))
  have hsorted := List.sorted_insertionSort nameLe
    ((splitWave 1 bigTrack).enum.map (fun q => (partName q.1, q.2)))
  have hflat : ((List.insertionSort nameLe
      ((splitWave 1 bigTrack).enum.map (fun q => (partName q.1, q.2)))).map
        Prod.snd).flatten = bigTrack.samples := h
  have hsing : ∀ w ∈ (List.insertionSort nameLe
      ((splitWave 1 bigTrack).enum.map (fun q => (partName q.1, q.2)))).map Prod.snd,
      ∃ a, w = [a] := by
    intro w hw
    rw [List.mem_map] at hw
    obtain ⟨p, hp, hpw⟩ := hw
    subst hpw
    exact (bigTrack_pair p (hperm.mem_iff.mp hp)).2
  have hsnd : (List.insertionSort nameLe
      ((splitWave 1 bigTrack).enum.map (fun q => (partName q.1, q.2)))).map Prod.snd =
      bigTrack.samples.map (fun a => [a]) := by
    rw [flatten_singletons _ hsing, hflat]
  have hLsnd : ((splitWave 1 bigTrack).enum.map
      (fun q => (partName q.1, q.2))).map Prod.snd = bigTrack.samples.map (fun a => [a]) := by
    rw [List.map_map]
    have hcomp : (Prod.snd ∘ fun q : Nat × Waveform => (partName q.1, q.2)) = Prod.snd := by
      funext q
      rfl
    rw [hcomp, List.enum_map_snd, bigTrack_split]
  have hSL : List.insertionSort nameLe
      ((splitWave 1 bigTrack).enum.map (fun q => (partName q.1, q.2))) =
      (splitWave 1 bigTrack).enum.map (fun q => (partName q.1, q.2)) := by
    have hS := pairs_reconstruct _ (fun p hp => (bigTrack_pair p (hperm.mem_iff.mp hp)).1)
    have hL2 := pairs_reconstruct _ (fun p hp => (bigTrack_pair p hp).1)
    rw [hS, hsnd, ← hLsnd, ← hL2]
  rw [hSL] at hsorted
  unfold List.Sorted at hsorted
  rw [List.pairwise_iff_getElem] at hsorted
  have hlen : ((splitWave 1 bigTrack).enum.map
      (fun q => (partName q.1, q.2))).length = 1002 := by
    rw [List.length_map, List.enum_length, bigTrack_split, List.length_map, bigTrack_len]
  have h999 := hsorted 999 1000 (by rw [hlen]; norm_num) (by rw [hlen]; norm_num)
    (by norm_num)
  simp only [List.getElem_map, List.getElem_enum] at h999
  have hle : lexLeB (partName 999) (partName 1000) = true := h999
  have hgt : lexLtB (partName 1000) (partName 999) = true := by decide
  unfold lexLeB at hle
  rw [hgt] at hle
  exact Bool.noConfusion hle

end LofiConvert
